import Mathlib

/-!
Shallow embedding of the tagged-field codec in `src/lnaddr.rs` (BOLT-11
tagged data, amount shorthand, timestamp, routing-hint records).

Conventions:
* Rust `u8`/`U5`/`u64`/`usize` values are `Nat`; wrapping casts and
  wrapping arithmetic carry an explicit `% 2^w` (release-profile
  semantics; debug builds panic on the same overflows, noted where used).
* Fallible Rust functions return `Except Error _`.
* Rust operations that can panic on out-of-range indexing are modelled in
  `Option`: `none` is the abort.
* A Rust `String` is modelled by its UTF-8 byte sequence (`List Nat`);
  the `String` type invariant (valid UTF-8) appears as an explicit
  hypothesis where a theorem needs it.
-/

set_option maxRecDepth 16384

namespace Lnaddr

/-- The error enum of the crate's `types` module (not under `src/`); the
constructors used by `lnaddr.rs` are `ParseFloatErr`, `FromUTF8Err` and
`InvalidLength`; `InvalidU5Padding` stands for the failure of the
word→byte conversion on non-zero padding bits. -/
inductive Error
  | ParseFloatErr
  | FromUTF8Err
  | InvalidLength (msg : String)
  | InvalidU5Padding
deriving DecidableEq, Repr

instance {ε α : Type} [DecidableEq ε] [DecidableEq α] : DecidableEq (Except ε α) := fun a b =>
  match a, b with
  | .error e, .error f => decidable_of_iff (e = f) (by simp)
  | .error _, .ok _ => isFalse (by simp)
  | .ok _, .error _ => isFalse (by simp)
  | .ok x, .ok y => decidable_of_iff (x = y) (by simp)

/-! ## Bit-level helpers for the 8-bit ↔ 5-bit boundary -/

/-- Value of a bit string, most significant bit first. -/
def bitsVal (l : List Bool) : Nat := l.foldl (fun a b => 2 * a + b.toNat) 0

/-- The 8 bits of a byte, most significant first. -/
def byteBits (b : Nat) : List Bool :=
  [b.testBit 7, b.testBit 6, b.testBit 5, b.testBit 4,
   b.testBit 3, b.testBit 2, b.testBit 1, b.testBit 0]

/-- The 5 bits of a 5-bit word, most significant first. -/
def word5bits (w : Nat) : List Bool :=
  [w.testBit 4, w.testBit 3, w.testBit 2, w.testBit 1, w.testBit 0]

/-- Concatenation of the images of `f` (our own `concatMap`). -/
def catMap {α β : Type} (f : α → List β) : List α → List β
  | [] => []
  | a :: l => f a ++ catMap f l

/-- Group a bit stream into 5-bit words, left-aligned, the last group
zero-padded at the end. -/
def toU5 : List Bool → List Nat
  | [] => []
  | [a] => [bitsVal [a, false, false, false, false]]
  | [a, b] => [bitsVal [a, b, false, false, false]]
  | [a, b, c] => [bitsVal [a, b, c, false, false]]
  | [a, b, c, d] => [bitsVal [a, b, c, d, false]]
  | a :: b :: c :: d :: e :: rest => bitsVal [a, b, c, d, e] :: toU5 rest

/-- Group a bit stream into bytes; a final group of fewer than 8 bits is
not emitted. -/
def toBytes : List Bool → List Nat
  | b0 :: b1 :: b2 :: b3 :: b4 :: b5 :: b6 :: b7 :: rest =>
      bitsVal [b0, b1, b2, b3, b4, b5, b6, b7] :: toBytes rest
  | _ => []

namespace VecU5

/-- Modelled from the spec: the crate's `types::VecU5::from_u8_vec`
(word/byte conversion utility, not under `src/`): "pack a byte sequence
into 5-bit words, left-aligned, zero-padded at the end"; packing itself
cannot fail. -/
def from_u8_vec (v : List Nat) : Except Error (List Nat) :=
  .ok (toU5 (catMap byteBits v))

/-- Modelled from the spec: the crate's `types::VecU5::to_u8_vec`
(not under `src/`), the exact inverse of `from_u8_vec`: regroup the 5-bit
words into bytes and fail "if the inverse padding bits are non-zero". -/
def to_u8_vec (ws : List Nat) : Except Error (List Nat) :=
  let bits := catMap word5bits ws
  if (bits.drop (8 * (bits.length / 8))).any id then .error .InvalidU5Padding
  else .ok (toBytes bits)

/-- Big-endian base-32 digits with a fuel bound on the number of words;
`from_u64` instantiates the fuel at 13, enough for every `u64`
(`32 ^ 13 = 2 ^ 65`), keeping the definition structurally recursive. -/
def from_u64Aux : Nat → Nat → List Nat
  | 0, _ => []
  | fuel + 1, n => if n = 0 then [] else from_u64Aux fuel (n / 32) ++ [n % 32]

/-- Modelled from the spec: the crate's `types::VecU5::from_u64`
(not under `src/`): the variable-length big-endian base-32 form of an
integer, with no leading zero words (`from_u64 0 = []`, as required by
`write_size`'s length-0 case). -/
def from_u64 (n : Nat) : List Nat := from_u64Aux 13 n

/-- Modelled from the spec: the crate's `types::VecU5::to_u64`
(not under `src/`): fold the first `len` words big-endian base-32 in
`u64` arithmetic (wrapping, release-profile). -/
def to_u64 (len : Nat) (data : List Nat) : Nat :=
  (data.take len).foldl (fun a b => (a * 32 + b) % 2 ^ 64) 0

end VecU5

/-! ## Alphabet table and amount codec -/

/-- The `BECH32_ALPHABET` character → 5-bit-value table. The Rust map
indexing panics on a missing key; every call site uses a key of the
table, so the default `0` is unreachable. -/
def BECH32_ALPHABET (c : Char) : Nat :=
  match c with
  | 'q' => 0 | 'p' => 1 | 'z' => 2 | 'r' => 3 | 'y' => 4 | '9' => 5
  | 'x' => 6 | '8' => 7 | 'g' => 8 | 'f' => 9 | '2' => 10 | 't' => 11
  | 'v' => 12 | 'd' => 13 | 'w' => 14 | '0' => 15 | 's' => 16 | '3' => 17
  | 'j' => 18 | 'n' => 19 | '5' => 20 | '4' => 21 | 'k' => 22 | 'h' => 23
  | 'c' => 24 | 'e' => 25 | '6' => 26 | 'm' => 27 | 'u' => 28 | 'a' => 29
  | '7' => 30 | 'l' => 31
  | _ => 0

/-- `Unit::value`: scale factor of a multiplier letter. The Rust function
returns these values as `f64`; all of them are integers below `2^53`, so
they are exact and modelled in `Rat`. -/
def Unit.value (c : Char) : Rat :=
  match c with
  | 'p' => 1000000000000
  | 'n' => 1000000000
  | 'u' => 1000000
  | 'm' => 1000
  | _ => 1

/-- `Unit::units`: the multiplier letters, finest first. -/
def Unit.units : List String := ["p", "n", "u", "m"]

/-- `encode_amount_aux`: repeatedly divide by 1000 while evenly divisible
and a multiplier letter remains; emit the value and the current letter
(no letter once the list is exhausted). `encode_amount` itself only
computes the integer pico-amount from an `f64` (floating point, outside
this embedding) and calls this function. -/
def encode_amount_aux : Nat → List String → String
  | amount, [] => toString amount
  | amount, u :: us =>
    if amount % 1000 = 0 then encode_amount_aux (amount / 1000) us
    else toString amount ++ u

/-- Modelled from the spec: the standard library's `f64` string parser
used by `decode_amount` (external to the repository). Acceptance follows
its documented grammar
`Sign? (inf | infinity | nan | Number)`, `Number ::= (Digit+ | Digit+ .
Digit* | Digit* . Digit+) Exp?`, `Exp ::= (e | E) Sign? Digit+`
(special words case-insensitive). Finite literals take their exact
rational value; `inf`/`infinity`/`nan` are accepted but have no rational
value and are modelled as `0` — only acceptance matters to the claims. -/
def parseF64 (s : String) : Option Rat :=
  let cs := s.toList
  let sign : Rat := if cs.head? = some '-' then -1 else 1
  let cs := if cs.head? = some '-' ∨ cs.head? = some '+' then cs.tail else cs
  let lower := cs.map Char.toLower
  if lower = "inf".toList ∨ lower = "infinity".toList ∨ lower = "nan".toList then
    some 0
  else
    let (mant, exPart) :=
      match cs.span (fun c => c ≠ 'e' ∧ c ≠ 'E') with
      | (m, []) => (m, none)
      | (m, _ :: r) => (m, some r)
    let (intPart, fracPart) :=
      match mant.span (fun c => c ≠ '.') with
      | (i, []) => (i, ([] : List Char))
      | (i, _ :: r) => (i, r)
    if intPart.all Char.isDigit ∧ fracPart.all Char.isDigit ∧
        intPart ++ fracPart ≠ [] then
      let digitsVal : List Char → Nat := fun l => l.foldl (fun a c => 10 * a + (c.toNat - 48)) 0
      let mval : Rat := digitsVal intPart + (digitsVal fracPart : Rat) / 10 ^ fracPart.length
      match exPart with
      | none => some (sign * mval)
      | some ecs =>
        let esign := ecs.head? = some '-'
        let ecs := if ecs.head? = some '-' ∨ ecs.head? = some '+' then ecs.tail else ecs
        if ecs ≠ [] ∧ ecs.all Char.isDigit then
          let e := digitsVal ecs
          some (if esign then sign * mval / 10 ^ e else sign * mval * 10 ^ e)
        else none
    else none

/-- `decode_amount`: look at the last character; if its `Unit::value` is
not 1, strip it, float-parse the rest and divide by the scale; otherwise
float-parse the whole string. A float-parse failure becomes
`Error::ParseFloatErr`. -/
def decode_amount (amount : String) : Except Error Rat :=
  match amount.toList.getLast? with
  | some c =>
    if Unit.value c ≠ 1 then
      match parseF64 (String.mk amount.toList.dropLast) with
      | some v => .ok (v / Unit.value c)
      | none => .error .ParseFloatErr
    else
      match parseF64 amount with
      | some v => .ok v
      | none => .error .ParseFloatErr
  | none =>
    match parseF64 amount with
    | some v => .ok v
    | none => .error .ParseFloatErr

/-! ## UTF-8 -/

/-- Modelled from the spec: validity of a UTF-8 byte sequence, the
domain on which the external `String::from_utf8` succeeds (standard
UTF-8 well-formedness table). -/
def isValidUtf8 : List Nat → Bool
  | [] => true
  | b :: rest =>
    if b < 0x80 then isValidUtf8 rest
    else if 0xC2 ≤ b ∧ b ≤ 0xDF then
      match rest with
      | c1 :: r => (c1 / 64 == 2) && isValidUtf8 r
      | [] => false
    else if b = 0xE0 then
      match rest with
      | c1 :: c2 :: r => (0xA0 ≤ c1 && c1 ≤ 0xBF) && (c2 / 64 == 2) && isValidUtf8 r
      | _ => false
    else if (0xE1 ≤ b ∧ b ≤ 0xEC) ∨ b = 0xEE ∨ b = 0xEF then
      match rest with
      | c1 :: c2 :: r => (c1 / 64 == 2) && (c2 / 64 == 2) && isValidUtf8 r
      | _ => false
    else if b = 0xED then
      match rest with
      | c1 :: c2 :: r => (0x80 ≤ c1 && c1 ≤ 0x9F) && (c2 / 64 == 2) && isValidUtf8 r
      | _ => false
    else if b = 0xF0 then
      match rest with
      | c1 :: c2 :: c3 :: r =>
          (0x90 ≤ c1 && c1 ≤ 0xBF) && (c2 / 64 == 2) && (c3 / 64 == 2) && isValidUtf8 r
      | _ => false
    else if 0xF1 ≤ b ∧ b ≤ 0xF3 then
      match rest with
      | c1 :: c2 :: c3 :: r =>
          (c1 / 64 == 2) && (c2 / 64 == 2) && (c3 / 64 == 2) && isValidUtf8 r
      | _ => false
    else if b = 0xF4 then
      match rest with
      | c1 :: c2 :: c3 :: r =>
          (0x80 ≤ c1 && c1 ≤ 0x8F) && (c2 / 64 == 2) && (c3 / 64 == 2) && isValidUtf8 r
      | _ => false
    else false

/-- Modelled from the spec: the external `String::from_utf8`, succeeding
exactly on valid UTF-8 (a Rust `String` is modelled by its byte
sequence, so success returns the bytes unchanged). -/
def from_utf8 (v : List Nat) : Except Error (List Nat) :=
  if isValidUtf8 v then .ok v else .error .FromUTF8Err

/-! ## ExtraHop codec -/

/-- `ExtraHop`: one 51-byte routing-hint record. Byte vectors and the
fixed-width unsigned fields are `Nat`s (`u64`/`u32`/`u16` ranges appear
as hypotheses where needed). -/
structure ExtraHop where
  pub_key : List Nat
  short_channel_id : Nat
  fee_base_msat : Nat
  fee_proportional_millionths : Nat
  cltv_expiry_delta : Nat
deriving DecidableEq, Repr

/-- `ExtraHop::CHUNK_LENGTH`: 33 + 8 + 4 + 4 + 2. -/
def ExtraHop.CHUNK_LENGTH : Nat := 51

/-- Fixed-width big-endian bytes of an integer, as written by the
byte-order writer (`write_u64::<BigEndian>` and friends): each emitted
byte is reduced `% 256`. -/
def beBytes : Nat → Nat → List Nat
  | 0, _ => []
  | w + 1, n => beBytes w (n / 256) ++ [n % 256]

/-- Big-endian value of a byte slice (`BigEndian::read_u64` and friends;
no overflow is possible for at most 8 input bytes below 256). -/
def beVal (l : List Nat) : Nat := l.foldl (fun a b => a * 256 + b) 0

/-- The 51-byte record written by `ExtraHop::pack`: public key bytes,
then `short_channel_id` (8 bytes), `fee_base_msat` (4),
`fee_proportional_millionths` (4), `cltv_expiry_delta` (2), all
big-endian. -/
def ExtraHop.packBytes (h : ExtraHop) : List Nat :=
  h.pub_key ++ beBytes 8 h.short_channel_id ++ beBytes 4 h.fee_base_msat ++
    beBytes 4 h.fee_proportional_millionths ++ beBytes 2 h.cltv_expiry_delta

/-- `ExtraHop::pack`. The writer into a `Vec<u8>` cannot fail, so the
result is always `ok`. -/
def ExtraHop.pack (h : ExtraHop) : Except Error (List Nat) := .ok h.packBytes

/-- `ExtraHop::parse`: read the five fields at their fixed offsets
0/33/41/45/49. The Rust function indexes out of bounds when given fewer
than 51 bytes (the caller contract of §4.3); its only caller in this
module, `parse_all`, passes exactly 51 bytes, on which the `take`/`drop`
reads below coincide with the Rust slices. -/
def ExtraHop.parse (data : List Nat) : ExtraHop :=
  { pub_key := data.take 33
    short_channel_id := beVal ((data.drop 33).take 8)
    fee_base_msat := beVal ((data.drop 41).take 4)
    fee_proportional_millionths := beVal ((data.drop 45).take 4)
    cltv_expiry_delta := beVal ((data.drop 49).take 2) }

/-- The iterator `data.chunks(51)`: consecutive 51-byte pieces, the last
possibly shorter, none empty. -/
def chunksOf : List Nat → List (List Nat)
  | [] => []
  | a :: l => ((a :: l).take 51) :: chunksOf ((a :: l).drop 51)
termination_by l => l.length
decreasing_by simp; omega

/-- `ExtraHop::parse_all`: keep only the chunks of exactly
`CHUNK_LENGTH` bytes (silently dropping a shorter final chunk) and parse
each. -/
def ExtraHop.parse_all (data : List Nat) : List ExtraHop :=
  ((chunksOf data).filter (fun c => c.length == ExtraHop.CHUNK_LENGTH)).map ExtraHop.parse

/-! ## Tag codec -/

/-- `Tag`: the closed set of invoice-field variants. A Rust `String`
(`Description`) is modelled by its UTF-8 byte sequence. -/
inductive Tag
  | PaymentHash (hash : List Nat)
  | Description (description : List Nat)
  | DescriptionHash (hash : List Nat)
  | FallbackAddress (version : Nat) (hash : List Nat)
  | Expiry (seconds : Nat)
  | MinFinalCltvExpiry (blocks : Nat)
  | RoutingInfo (path : List ExtraHop)
  | UnknownTag (tag : Nat) (bytes : List Nat)
deriving DecidableEq, Repr

/-- `Tag::write_size`: re-express a payload word count as exactly two
5-bit words, or fail when its natural base-32 form needs three or more
words. -/
def Tag.write_size (size : Nat) : Except Error (List Nat) :=
  match VecU5.from_u64 size with
  | [] => .ok [0, 0]
  | [a] => .ok ([0] ++ [a])
  | [a, b] => .ok [a, b]
  | _ => .error (.InvalidLength "tag data length field must be encoded on 2 5-bits u8")

/-- `Tag::to_vec_u5_convert`: prefix packed payload words with the type
code and the two length words `len / 32` and `len % 32`. The casts
`(len / 32) as u8` and `(len % 32) as u8` truncate modulo 256; no length
check is performed here. -/
def Tag.to_vec_u5_convert (value : Nat) (data : Except Error (List Nat)) :
    Except Error (List Nat) :=
  match data with
  | .ok bytes => .ok (value :: bytes.length / 32 % 256 :: bytes.length % 32 :: bytes)
  | .error err => .error err

/-- Fold of `ExtraHop::pack` over a path (`fold_results` with `extend`):
concatenate all packed hop records, propagating the first error. -/
def packPath : List ExtraHop → Except Error (List Nat)
  | [] => .ok []
  | h :: t => do
    let b ← h.pack
    let rest ← packPath t
    pure (b ++ rest)

/-- `Tag::to_vec_u5`: the encode direction of the tag codec. -/
def Tag.to_vec_u5 : Tag → Except Error (List Nat)
  | .PaymentHash hash =>
      Tag.to_vec_u5_convert (BECH32_ALPHABET 'p') (VecU5.from_u8_vec hash)
  | .Description description =>
      Tag.to_vec_u5_convert (BECH32_ALPHABET 'd') (VecU5.from_u8_vec description)
  | .DescriptionHash hash =>
      Tag.to_vec_u5_convert (BECH32_ALPHABET 'h') (VecU5.from_u8_vec hash)
  | .FallbackAddress version hash =>
      Tag.to_vec_u5_convert (BECH32_ALPHABET 'f')
        ((VecU5.from_u8_vec hash).map (fun b => [version] ++ b))
  | .Expiry seconds =>
      (Tag.write_size (VecU5.from_u64 seconds).length).map
        (fun size => [BECH32_ALPHABET 'x'] ++ size ++ VecU5.from_u64 seconds)
  | .MinFinalCltvExpiry blocks =>
      (Tag.write_size (VecU5.from_u64 blocks).length).map
        (fun size => [BECH32_ALPHABET 'c'] ++ size ++ VecU5.from_u64 blocks)
  | .RoutingInfo path =>
      Tag.to_vec_u5_convert (BECH32_ALPHABET 'r')
        ((packPath path).bind (fun v => VecU5.from_u8_vec v))
  | .UnknownTag tag bytes =>
      (Tag.write_size bytes.length).map (fun size => [tag] ++ size ++ bytes)

/-- The Rust range slice `&l[a..b]`, which panics (here: `none`) unless
`a ≤ b ∧ b ≤ l.len()`. -/
def rslice (l : List Nat) (a b : Nat) : Option (List Nat) :=
  if a ≤ b ∧ b ≤ l.length then some ((l.drop a).take (b - a)) else none

/-- `Tag::parse`: the decode direction. `none` models a Rust panic: an
out-of-range index or slice. The length field is read as
`(input[1] * 32 + input[2]) as usize` where `input[1]`, `input[2]` are
`u8`, so the arithmetic wraps modulo 256 (release profile; a debug build
panics on the same overflow). -/
def Tag.parse (input : List Nat) : Option (Except Error Tag) := do
  let tag ← input.get? 0
  let w1 ← input.get? 1
  let w2 ← input.get? 2
  let len := (w1 * 32 + w2) % 256
  if tag = BECH32_ALPHABET 'p' then
    let s ← rslice input 3 55
    some ((VecU5.to_u8_vec s).map (fun hash => .PaymentHash hash))
  else if tag = BECH32_ALPHABET 'd' then
    let s ← rslice input 3 (len + 3)
    some ((VecU5.to_u8_vec s).bind
      (fun v => (from_utf8 v).map (fun description => .Description description)))
  else if tag = BECH32_ALPHABET 'h' then
    let s ← rslice input 3 (len + 3)
    some ((VecU5.to_u8_vec s).map (fun hash => .DescriptionHash hash))
  else if tag = BECH32_ALPHABET 'f' then
    let version ← input.get? 3
    let s ← rslice input 4 (len + 3)
    if version ≤ 18 then
      some ((VecU5.to_u8_vec s).map (fun hash => .FallbackAddress version hash))
    else
      let bytes ← rslice input 3 (len + 3)
      some (.ok (.UnknownTag tag bytes))
  else if tag = BECH32_ALPHABET 'r' then
    let s ← rslice input 3 (len + 3)
    some ((VecU5.to_u8_vec s).map (fun v => .RoutingInfo (ExtraHop.parse_all v)))
  else if tag = BECH32_ALPHABET 'x' then
    let s ← rslice input 3 (len + 3)
    some (.ok (.Expiry (VecU5.to_u64 len s)))
  else if tag = BECH32_ALPHABET 'c' then
    let s ← rslice input 3 (len + 3)
    some (.ok (.MinFinalCltvExpiry (VecU5.to_u64 len s)))
  else
    let bytes ← rslice input 3 (len + 3)
    some (.ok (.UnknownTag tag bytes))

/-! ## Timestamp codec -/

/-- The push loop of `Timestamp::encode`: `k` iterations of
`acc.push(t % 32); t /= 32`, least significant word first. -/
def Timestamp.encodeAux : Nat → Nat → List Nat
  | 0, _ => []
  | k + 1, t => t % 32 :: Timestamp.encodeAux k (t / 32)

/-- `Timestamp::encode`: 7 words, most significant first. -/
def Timestamp.encode (timestamp : Nat) : List Nat :=
  (Timestamp.encodeAux 7 timestamp).reverse

/-- `Timestamp::decode`: fold the first 7 words big-endian base-32. -/
def Timestamp.decode (data : List Nat) : Nat :=
  (data.take 7).foldl (fun a b => a * 32 + b) 0

/-! ## Spec-side definitions (for refinement comparisons only) -/

/-- The amount grammar named by the claim and the spec: one or more
digits optionally followed by exactly one multiplier letter from
`p`, `n`, `u`, `m`. This follows the spec's words, not the code. -/
def amountGrammarSpec (s : String) : Bool :=
  let cs := s.toList
  (!cs.isEmpty && cs.all Char.isDigit) ||
    (match cs.getLast? with
     | some c =>
        ['p', 'n', 'u', 'm'].contains c && !cs.dropLast.isEmpty &&
          cs.dropLast.all Char.isDigit
     | none => false)

/-- The `FallbackAddress` encoding described by the claim and the spec:
"prepend the 1-byte version to the hash bytes before packing", i.e. the
version byte goes through the 8→5-bit packing together with the hash.
This follows the spec's words, not the code. -/
def fallbackEncodeSpec (version : Nat) (hash : List Nat) : Except Error (List Nat) :=
  Tag.to_vec_u5_convert (BECH32_ALPHABET 'f') (VecU5.from_u8_vec ([version] ++ hash))

/-- Number of divisions by 1000 performed by `encode_amount_aux` given
`n` remaining multiplier letters (spec-side characterization helper). -/
def shortenSteps : Nat → Nat → Nat
  | _, 0 => 0
  | amount, n + 1 =>
    if amount % 1000 = 0 then shortenSteps (amount / 1000) n + 1 else 0

/-! ## Concrete vectors from the repository's tests (witness inputs) -/

/-- The payment-hash wire vector of `tag_parse_test` (55 words). -/
def paymentHashTestWords : List Nat :=
  [1, 1, 20, 0, 0, 0, 16, 4, 0, 24, 4, 0, 20, 3, 0, 14, 2, 0, 9, 0, 0, 0, 16, 4, 0, 24,
   4, 0, 20, 3, 0, 14, 2, 0, 9, 0, 0, 0, 16, 4, 0, 24, 4, 0, 20, 3, 0, 14, 2, 0, 9, 0, 4,
   1, 0]

/-- The fallback-address hash of `fallback_address_tag_test` (20 bytes). -/
def fallbackTestHash : List Nat :=
  [49, 114, 181, 101, 79, 102, 131, 200, 251, 20, 105, 89, 211, 71, 206, 48, 60, 174, 76, 167]

/-! # Theorems

First, sanity checks of the embedding against the repository's own unit
tests (`lnaddr.rs`, `mod test`), then helper lemmas, then one theorem
per claim. -/

theorem payment_hash_tag_test :
    Tag.to_vec_u5 (.PaymentHash [0, 1, 2, 3, 4, 5, 6, 7, 8, 9, 0, 1, 2, 3, 4, 5, 6, 7,
      8, 9, 0, 1, 2, 3, 4, 5, 6, 7, 8, 9, 1, 2]) = .ok paymentHashTestWords := by decide

theorem expiry_tag_test : Tag.to_vec_u5 (.Expiry 60) = .ok [6, 0, 2, 1, 28] := by decide

theorem min_final_cltv_expiry_tag_test :
    Tag.to_vec_u5 (.MinFinalCltvExpiry 12) = .ok [24, 0, 1, 12] := by decide

theorem fallback_address_tag_test :
    Tag.to_vec_u5 (.FallbackAddress 17 fallbackTestHash) =
      .ok [9, 1, 1, 17, 6, 5, 25, 11, 10, 25, 10, 15, 12, 26, 1, 28, 17, 30, 24, 20, 13,
        5, 12, 29, 6, 17, 30, 14, 6, 0, 30, 10, 28, 19, 5, 7] := by decide

theorem expiry_parse_test :
    Tag.parse [6, 0, 2, 1, 28] = some (.ok (.Expiry 60)) := by decide

theorem min_final_parse_test :
    Tag.parse [24, 0, 1, 12] = some (.ok (.MinFinalCltvExpiry 12)) := by decide

theorem timestamp_test :
    Timestamp.decode [1, 12, 18, 31, 28, 25, 2] = 1496314658 ∧
      Timestamp.encode 1496314658 = [1, 12, 18, 31, 28, 25, 2] := by decide

/-! ## Bit-level helper lemmas -/

theorem word5bits_bitsVal :
    ∀ a b c d e : Bool, word5bits (bitsVal [a, b, c, d, e]) = [a, b, c, d, e] := by decide

set_option maxRecDepth 8192 in
theorem byteBits_bitsVal : ∀ b : Nat, b < 256 → bitsVal (byteBits b) = b := by decide

theorem length_catMap_byteBits (v : List Nat) : (catMap byteBits v).length = 8 * v.length := by
  induction v with
  | nil => rfl
  | cons a l ih => simp [catMap, byteBits, List.length_append, ih]; omega

theorem toU5_length (l : List Bool) : (toU5 l).length = (l.length + 4) / 5 := by
  induction l using toU5.induct <;> simp [toU5] <;> omega

theorem catMap_toU5 (l : List Bool) :
    catMap word5bits (toU5 l) = l ++ List.replicate ((5 - l.length % 5) % 5) false := by
  induction l using toU5.induct <;>
      simp_all [toU5, catMap, word5bits_bitsVal, List.replicate] <;>
    omega

theorem toBytes_small : ∀ l : List Bool, l.length < 8 → toBytes l = [] := by
  intro l h
  match l with
  | [] | [_] | [_, _] | [_, _, _] | [_, _, _, _] | [_, _, _, _, _]
  | [_, _, _, _, _, _] | [_, _, _, _, _, _, _] => rfl
  | _ :: _ :: _ :: _ :: _ :: _ :: _ :: _ :: _ => simp [List.length_cons] at h; omega

theorem toBytes_catMap (v : List Nat) (rest : List Bool) (hv : ∀ x ∈ v, x < 256)
    (hr : rest.length < 8) : toBytes (catMap byteBits v ++ rest) = v := by
  induction v with
  | nil => simpa [catMap] using toBytes_small rest hr
  | cons b bs ih =>
    have hb : b < 256 := hv b (List.mem_cons_self b bs)
    have hval := byteBits_bitsVal b hb
    simp only [byteBits] at hval
    simp only [catMap, byteBits, List.cons_append, List.append_assoc, toBytes, hval]
    exact List.cons_eq_cons.mpr ⟨rfl, ih (fun x hx => hv x (List.mem_cons_of_mem b hx))⟩

theorem any_replicate_false (k : Nat) : (List.replicate k false).any id = false := by
  induction k <;> simp_all [List.replicate]

/-- Unpacking inverts packing on byte sequences (all bytes below 256). -/
theorem to_u8_vec_from_u8_vec (v : List Nat) (hv : ∀ x ∈ v, x < 256) :
    VecU5.to_u8_vec (toU5 (catMap byteBits v)) = .ok v := by
  have hlen : (catMap byteBits v).length = 8 * v.length := length_catMap_byteBits v
  simp only [VecU5.to_u8_vec]
  rw [catMap_toU5]
  have h8 : 8 * ((catMap byteBits v ++
      List.replicate ((5 - (catMap byteBits v).length % 5) % 5) false).length / 8) =
      (catMap byteBits v).length := by
    rw [List.length_append, List.length_replicate, hlen]; omega
  rw [h8, List.drop_left, any_replicate_false]
  simp only [Bool.false_eq_true, if_false]
  rw [toBytes_catMap v _ hv (by rw [List.length_replicate]; omega)]

/-! ## Length-field lemmas (`from_u64`, `write_size`) -/

theorem from_u64Aux_succ (fuel n : Nat) :
    VecU5.from_u64Aux (fuel + 1) n =
      if n = 0 then [] else VecU5.from_u64Aux fuel (n / 32) ++ [n % 32] := rfl

theorem from_u64Aux_zero : ∀ fuel, VecU5.from_u64Aux fuel 0 = [] := by
  intro f; cases f <;> rfl

theorem from_u64Aux_lt32 (fuel s : Nat) (h0 : 0 < s) (h : s < 32) :
    VecU5.from_u64Aux (fuel + 1) s = [s] := by
  rw [from_u64Aux_succ, if_neg (by omega), Nat.div_eq_of_lt h, from_u64Aux_zero,
    Nat.mod_eq_of_lt h]
  rfl

theorem from_u64_lt32 (s : Nat) (h0 : 0 < s) (h : s < 32) : VecU5.from_u64 s = [s] := by
  unfold VecU5.from_u64
  rw [show (13 : Nat) = 12 + 1 from rfl]
  exact from_u64Aux_lt32 12 s h0 h

theorem from_u64_mid (s : Nat) (h0 : 32 ≤ s) (h : s < 1024) :
    VecU5.from_u64 s = [s / 32, s % 32] := by
  unfold VecU5.from_u64
  rw [show (13 : Nat) = 12 + 1 from rfl, from_u64Aux_succ, if_neg (by omega),
    show (12 : Nat) = 11 + 1 from rfl,
    from_u64Aux_lt32 11 (s / 32) (by omega) (by omega)]
  rfl

theorem from_u64Aux_length_le :
    ∀ fuel k n : Nat, n < 32 ^ k → (VecU5.from_u64Aux fuel n).length ≤ k := by
  intro fuel
  induction fuel with
  | zero => intro k n _; simp [VecU5.from_u64Aux]
  | succ fuel ih =>
    intro k n hn
    rw [from_u64Aux_succ]
    split
    · simp
    · rename_i hne
      cases k with
      | zero => simp at hn; omega
      | succ k =>
        have hdiv : n / 32 < 32 ^ k := by
          rw [Nat.div_lt_iff_lt_mul (by norm_num)]
          calc n < 32 ^ (k + 1) := hn
            _ = 32 ^ k * 32 := pow_succ 32 k
        have := ih k (n / 32) hdiv
        simp [List.length_append]; omega

theorem from_u64Aux_length_ge :
    ∀ fuel k n : Nat, 32 ^ k ≤ n → k + 1 ≤ fuel →
      k + 1 ≤ (VecU5.from_u64Aux fuel n).length := by
  intro fuel
  induction fuel with
  | zero => intro k n _ h; omega
  | succ fuel ih =>
    intro k n hn hk
    have hne : n ≠ 0 := by
      have : 1 ≤ 32 ^ k := Nat.one_le_pow k 32 (by norm_num)
      omega
    rw [from_u64Aux_succ, if_neg hne, List.length_append]
    cases k with
    | zero => simp
    | succ k =>
      have h32 : 32 ^ k ≤ n / 32 := by
        rw [Nat.le_div_iff_mul_le (by norm_num)]
        calc 32 ^ k * 32 = 32 ^ (k + 1) := (pow_succ 32 k).symm
          _ ≤ n := hn
      have := ih k (n / 32) h32 (by omega)
      simp; omega

theorem write_size_lt (s : Nat) (h : s < 1024) :
    Tag.write_size s = .ok [s / 32, s % 32] := by
  rcases Nat.lt_or_ge s 32 with h32 | h32
  · rcases Nat.eq_zero_or_pos s with rfl | hpos
    · rfl
    · rw [Tag.write_size, from_u64_lt32 s hpos h32]
      simp [Nat.div_eq_of_lt h32, Nat.mod_eq_of_lt h32]
  · rw [Tag.write_size, from_u64_mid s h32 h]

theorem write_size_ge (s : Nat) (h : 1024 ≤ s) :
    Tag.write_size s =
      .error (.InvalidLength "tag data length field must be encoded on 2 5-bits u8") := by
  have h3 : 3 ≤ (VecU5.from_u64 s).length := by
    unfold VecU5.from_u64
    exact from_u64Aux_length_ge 13 2 s
      (by calc (32 : Nat) ^ 2 = 1024 := by norm_num
        _ ≤ s := h)
      (by norm_num)
  rcases hE : VecU5.from_u64 s with _ | ⟨a, _ | ⟨b, _ | ⟨c, r⟩⟩⟩ <;> rw [hE] at h3
  · simp at h3
  · simp at h3
  · simp at h3
  · rw [Tag.write_size, hE]

/-- C5: `Tag::parse` performs no bounds validation of the declared
length field against the actual input length: on `[13, 0, 5]` (a
description tag whose 2-word length field declares 5 payload words while
none are present) and on the 1-word input `[1]`, the embedded
slicing/indexing leaves its defined domain (a Rust panic, modelled as
`none`) instead of producing a typed error. -/
theorem c5_parse_out_of_range :
    Tag.parse [13, 0, 5] = none ∧ Tag.parse [1] = none := by decide

/-- C2 (amended): tags encoded through `write_size` (`Expiry`,
`MinFinalCltvExpiry`, `UnknownTag`) fail with `InvalidLength` when the
payload needs 1024 or more words, and for payload word counts below 1024
(exactly those whose natural base-32 encoding has at most two words) the
emitted length field is exactly the two words `[len / 32, len % 32]`
(`[0, 0]` for length 0, a zero-left-padded single word, or a two-word
value passed through); but `to_vec_u5_convert` — the encode path of
`PaymentHash`, `Description`, `DescriptionHash`, `FallbackAddress` and
`RoutingInfo` — never fails on length: it always succeeds, emitting
`len / 32 % 256` (an out-of-range word for `len ≥ 1024`) and
`len % 32`. -/
theorem c2_length_field (s v t : Nat) (bytes : List Nat) :
    (1024 ≤ s → Tag.write_size s =
      .error (.InvalidLength "tag data length field must be encoded on 2 5-bits u8")) ∧
    (s < 1024 → Tag.write_size s = .ok [s / 32, s % 32]) ∧
    ((VecU5.from_u64 s).length ≤ 2 ↔ s < 1024) ∧
    Tag.to_vec_u5_convert v (.ok bytes) =
      .ok (v :: bytes.length / 32 % 256 :: bytes.length % 32 :: bytes) ∧
    (1024 ≤ bytes.length → Tag.to_vec_u5 (.UnknownTag t bytes) =
      .error (.InvalidLength "tag data length field must be encoded on 2 5-bits u8")) := by
  refine ⟨write_size_ge s, write_size_lt s, ⟨?_, ?_⟩, rfl, ?_⟩
  · intro hle
    by_contra hge
    have h3 : 3 ≤ (VecU5.from_u64 s).length := by
      unfold VecU5.from_u64
      exact from_u64Aux_length_ge 13 2 s
        (by calc (32 : Nat) ^ 2 = 1024 := by norm_num
          _ ≤ s := by omega)
        (by norm_num)
    omega
  · intro hlt
    have : (VecU5.from_u64 s).length ≤ 2 := by
      unfold VecU5.from_u64
      exact from_u64Aux_length_le 13 2 s
        (by calc s < 1024 := hlt
          _ = 32 ^ 2 := by norm_num)
    exact this
  · intro hb
    simp only [Tag.to_vec_u5]
    rw [write_size_ge _ hb]
    rfl

/-- C2 counterexample: a `Description` whose packed payload needs
exactly 1024 five-bit words (640 bytes of `a`) is encoded successfully —
no `InvalidLength` error is possible on the `to_vec_u5_convert` path,
refuting "for every Tag whose encoded payload requires 1024 or more
words, `to_vec_u5` fails". -/
theorem c2_counterexample :
    (VecU5.from_u8_vec (List.replicate 640 97)).map List.length = .ok 1024 ∧
    (Tag.to_vec_u5 (Tag.Description (List.replicate 640 97))).isOk = true := by
  constructor
  · simp only [VecU5.from_u8_vec, Except.map, toU5_length, length_catMap_byteBits,
      List.length_replicate]
  · simp only [Tag.to_vec_u5, VecU5.from_u8_vec, Tag.to_vec_u5_convert]
    rfl

/-- Witness for C2 at concrete inputs. -/
theorem c2_length_field_witness :
    Tag.write_size 1024 =
      .error (.InvalidLength "tag data length field must be encoded on 2 5-bits u8") ∧
    Tag.write_size 5 = .ok [0, 5] ∧
    Tag.to_vec_u5 (.UnknownTag 11 (List.replicate 1024 0)) =
      .error (.InvalidLength "tag data length field must be encoded on 2 5-bits u8") :=
  ⟨(c2_length_field 1024 0 0 []).1 (by norm_num),
   by simpa using (c2_length_field 5 0 0 []).2.1 (by norm_num),
   (c2_length_field 0 0 11 (List.replicate 1024 0)).2.2.2.2
     (by simp [List.length_replicate])⟩

/-! ## Timestamp lemmas -/

theorem encodeAux_length (k : Nat) : ∀ t, (Timestamp.encodeAux k t).length = k := by
  induction k with
  | zero => intro t; rfl
  | succ k ih => intro t; simp [Timestamp.encodeAux, ih]

theorem encodeAux_foldl (k : Nat) :
    ∀ t a, (Timestamp.encodeAux k t).reverse.foldl (fun x b => x * 32 + b) a =
      a * 32 ^ k + t % 32 ^ k := by
  induction k with
  | zero => intro t a; simp [Timestamp.encodeAux, Nat.mod_one]
  | succ k ih =>
    intro t a
    simp only [Timestamp.encodeAux, List.reverse_cons, List.foldl_append, ih]
    have h2 : t % (32 * 32 ^ k) = t % 32 + 32 * (t / 32 % 32 ^ k) := Nat.mod_mul
    rw [pow_succ]
    have h3 : t % (32 ^ k * 32) = t % 32 + 32 * (t / 32 % 32 ^ k) := by
      rw [mul_comm]; exact h2
    rw [h3]
    simp [List.foldl]
    ring

theorem timestamp_decode_encode (t : Nat) :
    Timestamp.decode (Timestamp.encode t) = t % 2 ^ 35 := by
  unfold Timestamp.decode Timestamp.encode
  rw [List.take_of_length_le (by simp [encodeAux_length])]
  have := encodeAux_foldl 7 t 0
  simpa [show (32 : Nat) ^ 7 = 2 ^ 35 by norm_num] using this

theorem encodeAux_mod (k : Nat) :
    ∀ t, Timestamp.encodeAux k (t % 32 ^ k) = Timestamp.encodeAux k t := by
  induction k with
  | zero => intro t; rfl
  | succ k ih =>
    intro t
    simp only [Timestamp.encodeAux]
    rw [Nat.mod_mod_of_dvd t (dvd_pow_self 32 (Nat.succ_ne_zero k)),
      show (32 : Nat) ^ (k + 1) = 32 * 32 ^ k from by rw [pow_succ, mul_comm],
      Nat.mod_mul_right_div_self, ih (t / 32)]

/-- C6: for every timestamp below `2^35`, `Timestamp::encode` produces
exactly 7 five-bit words (most significant first) and
`Timestamp::decode` recovers the timestamp. -/
theorem c6_timestamp_roundtrip (t : Nat) (ht : t < 2 ^ 35) :
    (Timestamp.encode t).length = 7 ∧ Timestamp.decode (Timestamp.encode t) = t := by
  constructor
  · simp [Timestamp.encode, encodeAux_length]
  · rw [timestamp_decode_encode, Nat.mod_eq_of_lt ht]

/-- Witness for C6 at the repository test's timestamp. -/
theorem c6_timestamp_roundtrip_witness :
    (Timestamp.encode 1496314658).length = 7 ∧
      Timestamp.decode (Timestamp.encode 1496314658) = 1496314658 :=
  c6_timestamp_roundtrip 1496314658 (by norm_num)

/-- C10: `Timestamp::encode` silently truncates every `u64` above 35
bits: the encoding equals that of `t % 2^35`, still has exactly 7 words,
and decodes to `t % 2^35`. -/
theorem c10_timestamp_truncation (t : Nat) (_ht : t < 2 ^ 64) :
    Timestamp.encode t = Timestamp.encode (t % 2 ^ 35) ∧
      (Timestamp.encode t).length = 7 ∧
      Timestamp.decode (Timestamp.encode t) = t % 2 ^ 35 := by
  refine ⟨?_, ?_, timestamp_decode_encode t⟩
  · unfold Timestamp.encode
    rw [show (2 : Nat) ^ 35 = 32 ^ 7 by norm_num, encodeAux_mod]
  · simp [Timestamp.encode, encodeAux_length]

/-- Witness for C10 at a value above 35 bits. -/
theorem c10_timestamp_truncation_witness :
    Timestamp.encode (2 ^ 63) = Timestamp.encode (2 ^ 63 % 2 ^ 35) ∧
      (Timestamp.encode (2 ^ 63)).length = 7 ∧
      Timestamp.decode (Timestamp.encode (2 ^ 63)) = 2 ^ 63 % 2 ^ 35 :=
  c10_timestamp_truncation (2 ^ 63) (by norm_num)

/-! ## ExtraHop chunking -/

/-- C9: `ExtraHop::parse_all` on a byte sequence of length `51 * n + r`
(`0 ≤ r < 51`) yields exactly the `n` hops parsed from the consecutive
51-byte chunks in order, silently discarding the trailing `r` bytes. -/
theorem c9_parse_all_chunks :
    ∀ (n : Nat) (data : List Nat) (r : Nat), data.length = 51 * n + r → r < 51 →
      ExtraHop.parse_all data =
        (List.range n).map (fun i => ExtraHop.parse ((data.drop (51 * i)).take 51)) := by
  intro n
  induction n with
  | zero =>
    intro data r hlen hr
    cases data with
    | nil => simp [ExtraHop.parse_all, chunksOf]
    | cons a l =>
      simp only [List.length_cons] at hlen
      have h1 : (a :: l).length ≤ 51 := by simp [List.length_cons]; omega
      simp only [ExtraHop.parse_all, chunksOf, List.range_zero, List.map_nil]
      rw [List.take_of_length_le h1, List.drop_eq_nil_of_le h1]
      simp only [chunksOf, List.filter_cons, ExtraHop.CHUNK_LENGTH]
      simp
      omega
  | succ n ih =>
    intro data r hlen hr
    cases data with
    | nil => simp at hlen; omega
    | cons a l =>
      simp only [List.length_cons] at hlen
      have htake : ((a :: l).take 51).length = 51 := by
        simp [List.length_take, List.length_cons]; omega
      have hlen2 : ((a :: l).drop 51).length = 51 * n + r := by
        simp [List.length_drop, List.length_cons]; omega
      have htail := ih ((a :: l).drop 51) r hlen2 hr
      simp only [ExtraHop.parse_all, ExtraHop.CHUNK_LENGTH] at htail ⊢
      simp only [chunksOf, List.filter_cons, htake]
      norm_num
      rw [List.range_succ_eq_map, List.map_cons, List.map_map]
      simp only [List.drop_succ_cons] at htail
      refine List.cons_eq_cons.mpr ⟨?_, ?_⟩
      · simp
      · rw [htail]
        apply List.map_congr_left
        intro i _
        simp only [Function.comp_apply, List.drop_drop, Nat.succ_eq_add_one]
        rw [show 51 * (i + 1) = (50 + 51 * i) + 1 from by ring, List.drop_succ_cons]

/-- Witness for C9: 102 bytes parse to exactly 2 hops. -/
theorem c9_parse_all_chunks_witness :
    ExtraHop.parse_all (List.replicate 102 7) =
      (List.range 2).map
        (fun i => ExtraHop.parse (((List.replicate 102 7).drop (51 * i)).take 51)) :=
  c9_parse_all_chunks 2 (List.replicate 102 7) 0 (by simp [List.length_replicate])
    (by norm_num)

/-! ## Amount shortening -/

theorem encode_amount_aux_eq : ∀ (units : List String) (amount : Nat),
    encode_amount_aux amount units =
      toString (amount / 1000 ^ shortenSteps amount units.length) ++
        units.getD (shortenSteps amount units.length) "" := by
  intro units
  induction units with
  | nil =>
    intro amount
    simp [encode_amount_aux, shortenSteps, List.getD]
  | cons u us ih =>
    intro amount
    simp only [encode_amount_aux, List.length_cons, shortenSteps]
    split
    · rename_i h
      rw [ih (amount / 1000), Nat.div_div_eq_div_mul,
        show (1000 : Nat) * 1000 ^ shortenSteps (amount / 1000) us.length =
          1000 ^ (shortenSteps (amount / 1000) us.length + 1) from by rw [pow_succ, mul_comm]]
      simp [List.getD]
    · simp [List.getD]

theorem shortenSteps_le : ∀ (n amount : Nat), shortenSteps amount n ≤ n := by
  intro n
  induction n with
  | zero => intro amount; simp [shortenSteps]
  | succ n ih =>
    intro amount
    simp only [shortenSteps]
    split
    · have := ih (amount / 1000); omega
    · omega

theorem shortenSteps_dvd : ∀ (n amount : Nat), 1000 ^ shortenSteps amount n ∣ amount := by
  intro n
  induction n with
  | zero => intro amount; simp [shortenSteps]
  | succ n ih =>
    intro amount
    simp only [shortenSteps]
    split
    · rename_i h
      have hdvd : 1000 ∣ amount := Nat.dvd_of_mod_eq_zero h
      set s := shortenSteps (amount / 1000) n with hs
      rcases ih (amount / 1000) with ⟨c, hc⟩
      refine ⟨c, ?_⟩
      rw [pow_succ]
      calc amount = amount / 1000 * 1000 := (Nat.div_mul_cancel hdvd).symm
        _ = 1000 ^ s * c * 1000 := by rw [hc]
        _ = 1000 ^ s * 1000 * c := by ring
    · simp

theorem shortenSteps_max : ∀ (n amount : Nat), shortenSteps amount n < n →
    ¬ (1000 ∣ amount / 1000 ^ shortenSteps amount n) := by
  intro n
  induction n with
  | zero => intro amount h; omega
  | succ n ih =>
    intro amount h
    by_cases hm : amount % 1000 = 0
    · simp only [shortenSteps, if_pos hm] at h ⊢
      have hrec := ih (amount / 1000) (by omega)
      rw [show (1000 : Nat) ^ (shortenSteps (amount / 1000) n + 1) =
          1000 * 1000 ^ shortenSteps (amount / 1000) n from by rw [pow_succ, mul_comm],
        ← Nat.div_div_eq_div_mul]
      exact hrec
    · simp only [shortenSteps, if_neg hm, pow_zero, Nat.div_one]
      intro hd
      exact hm (Nat.mod_eq_zero_of_dvd hd)

theorem shortenSteps_ge (n amount k : Nat) (hk : k ≤ n) (hd : 1000 ^ k ∣ amount) :
    k ≤ shortenSteps amount n := by
  by_contra hlt
  push_neg at hlt
  have hsn : shortenSteps amount n < n := by omega
  apply shortenSteps_max n amount hsn
  rw [Nat.dvd_div_iff_mul_dvd (shortenSteps_dvd n amount)]
  calc 1000 ^ shortenSteps amount n * 1000 = 1000 ^ (shortenSteps amount n + 1) := by
        rw [pow_succ]
    _ ∣ 1000 ^ k := pow_dvd_pow 1000 (by omega)
    _ ∣ amount := hd

theorem units_getD_ne :
    ∀ i, i ≤ 4 → ∀ j, j < i → Unit.units.getD i "" ≠ Unit.units.getD j "" := by decide

/-- C7: `encode_amount_aux`, starting from the integer pico-amount,
divides by 1000 and moves to the next coarser letter exactly while the
value is evenly divisible and a letter remains: its output is the value
divided by `1000 ^ s` followed by the `s`-th multiplier suffix (none
once all four letters are consumed), where `s` divisions is maximal
(`s = 4` or no further division is exact); consequently the output never
carries the letter of level `j` when level `j + 1` still divides the
pico-amount evenly. (The `f64` pico-amount computation of
`encode_amount` itself is floating point and outside the embedding; the
claim is stated, as written, from the integer pico-amount.) -/
theorem c7_encode_amount_minimal (pico : Nat) :
    encode_amount_aux pico Unit.units =
      toString (pico / 1000 ^ shortenSteps pico 4) ++
        Unit.units.getD (shortenSteps pico 4) "" ∧
    1000 ^ shortenSteps pico 4 ∣ pico ∧
    (shortenSteps pico 4 = 4 ∨ ¬ (1000 ^ (shortenSteps pico 4 + 1) ∣ pico)) ∧
    (∀ j, j < 4 → 1000 ^ (j + 1) ∣ pico →
      Unit.units.getD (shortenSteps pico 4) "" ≠ Unit.units.getD j "") := by
  refine ⟨?_, shortenSteps_dvd 4 pico, ?_, ?_⟩
  · have := encode_amount_aux_eq Unit.units pico
    rwa [show Unit.units.length = 4 from rfl] at this
  · rcases Nat.lt_or_ge (shortenSteps pico 4) 4 with h | h
    · right
      intro hd
      have := shortenSteps_ge 4 pico (shortenSteps pico 4 + 1) (by omega) hd
      omega
    · left
      have := shortenSteps_le 4 pico
      omega
  · intro j hj hd
    have hge := shortenSteps_ge 4 pico (j + 1) (by omega) hd
    have hle := shortenSteps_le 4 pico
    exact units_getD_ne (shortenSteps pico 4) hle j (by omega)

/-- Witness for C7 at the pico-amount `10^6` (encoded `1u`): level 1
(`1000 ∣ 10^6`) still divides, and the emitted suffix is not `p`. -/
theorem c7_encode_amount_minimal_witness :
    encode_amount_aux 1000000 Unit.units =
      toString (1000000 / 1000 ^ shortenSteps 1000000 4) ++
        Unit.units.getD (shortenSteps 1000000 4) "" ∧
    Unit.units.getD (shortenSteps 1000000 4) "" ≠ Unit.units.getD 0 "" :=
  ⟨(c7_encode_amount_minimal 1000000).1,
   (c7_encode_amount_minimal 1000000).2.2.2 0 (by norm_num) ⟨1000, by norm_num⟩⟩

/-! ## Tag parse/encode claims -/

/-- C8: when `Tag::parse` reads type code 1 (`p`), the payload consumed
is fixed at input words 3..55 regardless of the value declared in the
2-word length field: for every input of at least 55 words with type code
1, the result is determined by words 3..55 alone (the equation's right
side does not mention words 1 and 2), and on valid padding it is the
`PaymentHash` of those 52 words' bytes. -/
theorem c8_payment_hash_fixed (input : List Nat) (h55 : 55 ≤ input.length)
    (hp : input.get? 0 = some 1) :
    Tag.parse input =
      some ((VecU5.to_u8_vec ((input.drop 3).take 52)).map
        (fun hash => Tag.PaymentHash hash)) := by
  have h1 : 1 < input.length := by omega
  have h2 : 2 < input.length := by omega
  have hp0 : input[0]? = some 1 := by simpa using hp
  simp [Tag.parse, rslice, BECH32_ALPHABET, hp0, List.getElem?_eq_getElem h1,
    List.getElem?_eq_getElem h2, h55]

/-- Witness for C8 at the repository's payment-hash test vector (55
words, declared length 52). -/
theorem c8_payment_hash_fixed_witness :
    Tag.parse paymentHashTestWords =
      some ((VecU5.to_u8_vec ((paymentHashTestWords.drop 3).take 52)).map
        (fun hash => Tag.PaymentHash hash)) :=
  c8_payment_hash_fixed paymentHashTestWords (by decide) (by decide)

/-- C3 counterexample: for version 17 and the 1-byte hash `[49]`, the
encoder's output differs from the spec-described encoding in which the
version byte is packed together with the hash: the code emits the
version as one 5-bit word ahead of the packed hash words. -/
theorem c3_counterexample :
    Tag.to_vec_u5 (.FallbackAddress 17 [49]) = .ok [9, 0, 3, 17, 6, 4] ∧
    fallbackEncodeSpec 17 [49] = .ok [9, 0, 4, 2, 4, 24, 16] ∧
    Tag.to_vec_u5 (.FallbackAddress 17 [49]) ≠ fallbackEncodeSpec 17 [49] := by decide

/-- C3 (amended): encoding `FallbackAddress` prepends the 1-byte version
as a single 5-bit word to the hash's packed words — the version does not
participate in the 8-bit-to-5-bit packing — and the result is prefixed
with the type code and the 2-word length field counting the version
word; parsing that encoding returns the original tag (version ≤ 18,
bytes below 256, payload below 256 words). -/
theorem c3_fallback_version_as_word (version : Nat) (hash : List Nat)
    (hv : version ≤ 18) (hb : ∀ x ∈ hash, x < 256)
    (hlen : (toU5 (catMap byteBits hash)).length + 1 < 256) :
    Tag.to_vec_u5 (.FallbackAddress version hash) =
      .ok (9 :: ((toU5 (catMap byteBits hash)).length + 1) / 32 % 256 ::
        ((toU5 (catMap byteBits hash)).length + 1) % 32 ::
        version :: toU5 (catMap byteBits hash)) ∧
    Tag.parse (9 :: ((toU5 (catMap byteBits hash)).length + 1) / 32 % 256 ::
        ((toU5 (catMap byteBits hash)).length + 1) % 32 ::
        version :: toU5 (catMap byteBits hash)) =
      some (.ok (.FallbackAddress version hash)) := by
  constructor
  · simp [Tag.to_vec_u5, VecU5.from_u8_vec, Tag.to_vec_u5_convert, Except.map,
      BECH32_ALPHABET, List.length_cons]
  · set W := toU5 (catMap byteBits hash) with hW
    set n := W.length + 1 with hn
    have hlen2 : (n / 32 % 256 * 32 + n % 32) % 256 = n := by omega
    have hcond : ¬ ((9 : Nat) = BECH32_ALPHABET 'p') := by decide
    have hcond2 : ¬ ((9 : Nat) = BECH32_ALPHABET 'd') := by decide
    have hcond3 : ¬ ((9 : Nat) = BECH32_ALPHABET 'h') := by decide
    have hcond4 : (9 : Nat) = BECH32_ALPHABET 'f' := by decide
    have hslice : rslice (9 :: n / 32 % 256 :: n % 32 :: version :: W) 4 (n + 3) =
        some W := by
      rw [rslice, if_pos (by simp only [List.length_cons]; omega)]
      simp only [List.drop_succ_cons, List.drop_zero]
      rw [show n + 3 - 4 = W.length from by omega, List.take_length]
    simp only [Tag.parse, List.get?, Option.bind_eq_bind, Option.some_bind, hlen2]
    rw [if_neg hcond, if_neg hcond2, if_neg hcond3, if_pos hcond4, hslice]
    simp only [Option.some_bind]
    rw [if_pos hv, hW, to_u8_vec_from_u8_vec hash hb]
    rfl

/-- Witness for C3 at the repository's fallback-address test values
(version 17, 20-byte hash). -/
theorem c3_fallback_version_as_word_witness :
    Tag.to_vec_u5 (.FallbackAddress 17 fallbackTestHash) =
      .ok (9 :: ((toU5 (catMap byteBits fallbackTestHash)).length + 1) / 32 % 256 ::
        ((toU5 (catMap byteBits fallbackTestHash)).length + 1) % 32 ::
        17 :: toU5 (catMap byteBits fallbackTestHash)) ∧
    Tag.parse (9 :: ((toU5 (catMap byteBits fallbackTestHash)).length + 1) / 32 % 256 ::
        ((toU5 (catMap byteBits fallbackTestHash)).length + 1) % 32 ::
        17 :: toU5 (catMap byteBits fallbackTestHash)) =
      some (.ok (.FallbackAddress 17 fallbackTestHash)) :=
  c3_fallback_version_as_word 17 fallbackTestHash (by decide) (by decide) (by decide)

/-- C1, evaluated at the failing input: a `Description` of 160 `a` bytes
packs to exactly 256 payload words, so the encoder emits the length
field `[8, 0]`; the parser's 8-bit length arithmetic wraps
`8 * 32 + 0` to 0 (a debug build panics on the same overflow), so the
round trip returns `Description ""` instead of the original tag. -/
theorem c1_length_overflow :
    (Tag.to_vec_u5 (Tag.Description (List.replicate 160 97))).map (List.take 3) =
      .ok [13, 8, 0] ∧
    (Tag.to_vec_u5 (Tag.Description (List.replicate 160 97))).toOption.map Tag.parse =
      some (some (.ok (Tag.Description []))) ∧
    Tag.Description (List.replicate 160 97) ≠ Tag.Description [] := by
  have hW : (toU5 (catMap byteBits (List.replicate 160 97))).length = 256 := by
    rw [toU5_length, length_catMap_byteBits, List.length_replicate]
  have hENC : Tag.to_vec_u5 (Tag.Description (List.replicate 160 97)) =
      .ok (13 :: 8 :: 0 :: toU5 (catMap byteBits (List.replicate 160 97))) := by
    simp only [Tag.to_vec_u5, VecU5.from_u8_vec, Tag.to_vec_u5_convert, hW]
    rfl
  refine ⟨by rw [hENC]; rfl, ?_, by simp⟩
  rw [hENC]
  have hcond : ¬ ((13 : Nat) = BECH32_ALPHABET 'p') := by decide
  have hcond2 : (13 : Nat) = BECH32_ALPHABET 'd' := by decide
  have hlen0 : ((8 : Nat) * 32 + 0) % 256 = 0 := by norm_num
  have hslice : rslice (13 :: 8 :: 0 :: toU5 (catMap byteBits (List.replicate 160 97)))
      3 (0 + 3) = some [] := by
    rw [rslice, if_pos (by simp [List.length_cons])]
    simp
  show some (Tag.parse (13 :: 8 :: 0 :: toU5 (catMap byteBits (List.replicate 160 97)))) =
    some (some (.ok (Tag.Description [])))
  refine congrArg some ?_
  simp only [Tag.parse, List.get?, Option.bind_eq_bind, Option.some_bind, hlen0]
  rw [if_neg hcond, if_pos hcond2, hslice]
  rfl

/-- C4, evaluated at the failing input: `decode_amount "1.5"` succeeds
(the string is delegated to the general float parser) although `"1.5"`
does not match the required grammar "digits optionally followed by one
multiplier letter", which the function's own documentation (quoting
BOLT 11) says must be rejected. -/
theorem c4_decode_amount_accepts_nongrammar :
    amountGrammarSpec "1.5" = false ∧ (decode_amount "1.5").isOk = true := by decide

/-! ## Supplementary: the round trip below the 8-bit length boundary

These theorems are not tied to a single claim; they document that for
every variant the encode/parse round trip does hold whenever the payload
stays below 256 words — i.e. wherever the parser's 8-bit length
arithmetic cannot wrap. -/

theorem rslice_payload (t L1 L2 : Nat) (W : List Nat) :
    rslice (t :: L1 :: L2 :: W) 3 (W.length + 3) = some W := by
  rw [rslice, if_pos (by simp only [List.length_cons]; omega)]
  simp only [List.drop_succ_cons, List.drop_zero]
  rw [show W.length + 3 - 3 = W.length from by omega, List.take_length]

theorem foldl_pure_from_u64Aux :
    ∀ (fuel n a : Nat), n < 32 ^ fuel →
      (VecU5.from_u64Aux fuel n).foldl (fun x b => x * 32 + b) a =
        a * 32 ^ (VecU5.from_u64Aux fuel n).length + n := by
  intro fuel
  induction fuel with
  | zero =>
    intro n a hn
    interval_cases n
    simp [VecU5.from_u64Aux]
  | succ fuel ih =>
    intro n a hn
    rw [from_u64Aux_succ]
    split
    · rename_i h; subst h; simp
    · rename_i hne
      have hdiv : n / 32 < 32 ^ fuel := by
        rw [Nat.div_lt_iff_lt_mul (by norm_num)]
        calc n < 32 ^ (fuel + 1) := hn
          _ = 32 ^ fuel * 32 := pow_succ 32 fuel
      rw [List.foldl_append, ih (n / 32) a hdiv]
      simp only [List.foldl, List.length_append, List.length_cons, List.length_nil]
      generalize (VecU5.from_u64Aux fuel (n / 32)).length = L
      rw [pow_succ, show a * (32 ^ L * 32) = a * 32 ^ L * 32 from by ring]
      generalize a * 32 ^ L = A
      omega

theorem foldl_step_mod_eq :
    ∀ (l : List Nat) (a : Nat),
      l.foldl (fun x b => (x * 32 + b) % 2 ^ 64) (a % 2 ^ 64) =
        (l.foldl (fun x b => x * 32 + b) a) % 2 ^ 64 := by
  intro l
  induction l with
  | nil => intro a; simp
  | cons b t ih =>
    intro a
    simp only [List.foldl]
    rw [show (a % 2 ^ 64 * 32 + b) % 2 ^ 64 = (a * 32 + b) % 2 ^ 64 from by
      conv_lhs => rw [Nat.add_mod, Nat.mul_mod, Nat.mod_mod]
      conv_rhs => rw [Nat.add_mod, Nat.mul_mod]]
    exact ih (a * 32 + b)

theorem to_u64_from_u64 (n : Nat) (hn : n < 2 ^ 64) :
    VecU5.to_u64 (VecU5.from_u64 n).length (VecU5.from_u64 n) = n := by
  have h13 : n < 32 ^ 13 := by
    calc n < 2 ^ 64 := hn
      _ ≤ 32 ^ 13 := by norm_num
  unfold VecU5.to_u64
  rw [List.take_length]
  rw [show (0 : Nat) = 0 % 2 ^ 64 from rfl, foldl_step_mod_eq]
  unfold VecU5.from_u64
  rw [foldl_pure_from_u64Aux 13 n 0 h13,
    show 0 * 32 ^ (VecU5.from_u64Aux 13 n).length + n = n from by ring]
  exact Nat.mod_eq_of_lt hn

theorem from_u64_length_le13 (n : Nat) (hn : n < 2 ^ 64) :
    (VecU5.from_u64 n).length ≤ 13 := by
  unfold VecU5.from_u64
  exact from_u64Aux_length_le 13 13 n
    (by calc n < 2 ^ 64 := hn
      _ ≤ 32 ^ 13 := by norm_num)

/-- Round trip for `PaymentHash` (32-byte hash). -/
theorem roundtrip_payment_hash (hash : List Nat) (h32 : hash.length = 32)
    (hb : ∀ x ∈ hash, x < 256) :
    (Tag.to_vec_u5 (.PaymentHash hash)).toOption.map Tag.parse =
      some (some (.ok (.PaymentHash hash))) := by
  have hW : (toU5 (catMap byteBits hash)).length = 52 := by
    rw [toU5_length, length_catMap_byteBits, h32]
  have hENC : Tag.to_vec_u5 (.PaymentHash hash) =
      .ok (1 :: 1 :: 20 :: toU5 (catMap byteBits hash)) := by
    simp only [Tag.to_vec_u5, VecU5.from_u8_vec, Tag.to_vec_u5_convert, hW]
    rfl
  rw [hENC]
  show some (Tag.parse (1 :: 1 :: 20 :: toU5 (catMap byteBits hash))) =
    some (some (.ok (.PaymentHash hash)))
  refine congrArg some ?_
  have hcond : (1 : Nat) = BECH32_ALPHABET 'p' := by decide
  have hslice : rslice (1 :: 1 :: 20 :: toU5 (catMap byteBits hash)) 3 55 =
      some (toU5 (catMap byteBits hash)) := by
    rw [rslice, if_pos (by simp only [List.length_cons, hW]; omega)]
    simp only [List.drop_succ_cons, List.drop_zero]
    rw [show (55 : Nat) - 3 = 52 from rfl, ← hW, List.take_length]
  simp only [Tag.parse, List.get?, Option.bind_eq_bind, Option.some_bind]
  rw [if_pos hcond, hslice]
  simp only [Option.some_bind]
  rw [to_u8_vec_from_u8_vec hash hb]
  rfl

/-- Round trip for `Description` (valid UTF-8, payload below 256
words). -/
theorem roundtrip_description (description : List Nat)
    (hutf : isValidUtf8 description = true) (hb : ∀ x ∈ description, x < 256)
    (hlen : (toU5 (catMap byteBits description)).length < 256) :
    (Tag.to_vec_u5 (.Description description)).toOption.map Tag.parse =
      some (some (.ok (.Description description))) := by
  set W := toU5 (catMap byteBits description) with hW
  set n := W.length with hn
  have hENC : Tag.to_vec_u5 (.Description description) =
      .ok (13 :: n / 32 % 256 :: n % 32 :: W) := by
    simp only [Tag.to_vec_u5, VecU5.from_u8_vec, Tag.to_vec_u5_convert]
    rfl
  rw [hENC]
  show some (Tag.parse (13 :: n / 32 % 256 :: n % 32 :: W)) =
    some (some (.ok (.Description description)))
  refine congrArg some ?_
  have hlen2 : (n / 32 % 256 * 32 + n % 32) % 256 = n := by omega
  have hcond : ¬ ((13 : Nat) = BECH32_ALPHABET 'p') := by decide
  have hcond2 : (13 : Nat) = BECH32_ALPHABET 'd' := by decide
  have hslice : rslice (13 :: n / 32 % 256 :: n % 32 :: W) 3 (n + 3) = some W := by
    rw [hn]
    exact rslice_payload 13 (W.length / 32 % 256) (W.length % 32) W
  simp only [Tag.parse, List.get?, Option.bind_eq_bind, Option.some_bind, hlen2]
  rw [if_neg hcond, if_pos hcond2, hslice]
  simp only [Option.some_bind]
  rw [hW, to_u8_vec_from_u8_vec description hb]
  show some (Except.map _ (from_utf8 description)) = _
  rw [from_utf8, if_pos hutf]
  rfl

/-- Round trip for `DescriptionHash` (payload below 256 words). -/
theorem roundtrip_description_hash (hash : List Nat) (hb : ∀ x ∈ hash, x < 256)
    (hlen : (toU5 (catMap byteBits hash)).length < 256) :
    (Tag.to_vec_u5 (.DescriptionHash hash)).toOption.map Tag.parse =
      some (some (.ok (.DescriptionHash hash))) := by
  set W := toU5 (catMap byteBits hash) with hW
  set n := W.length with hn
  have hENC : Tag.to_vec_u5 (.DescriptionHash hash) =
      .ok (23 :: n / 32 % 256 :: n % 32 :: W) := by
    simp only [Tag.to_vec_u5, VecU5.from_u8_vec, Tag.to_vec_u5_convert]
    rfl
  rw [hENC]
  show some (Tag.parse (23 :: n / 32 % 256 :: n % 32 :: W)) =
    some (some (.ok (.DescriptionHash hash)))
  refine congrArg some ?_
  have hlen2 : (n / 32 % 256 * 32 + n % 32) % 256 = n := by omega
  have hcond : ¬ ((23 : Nat) = BECH32_ALPHABET 'p') := by decide
  have hcond2 : ¬ ((23 : Nat) = BECH32_ALPHABET 'd') := by decide
  have hcond3 : (23 : Nat) = BECH32_ALPHABET 'h' := by decide
  have hslice : rslice (23 :: n / 32 % 256 :: n % 32 :: W) 3 (n + 3) = some W := by
    rw [hn]
    exact rslice_payload 23 (W.length / 32 % 256) (W.length % 32) W
  simp only [Tag.parse, List.get?, Option.bind_eq_bind, Option.some_bind, hlen2]
  rw [if_neg hcond, if_neg hcond2, if_pos hcond3, hslice]
  simp only [Option.some_bind]
  rw [hW, to_u8_vec_from_u8_vec hash hb]
  rfl

/-- Round trip for `Expiry` (any `u64` seconds value). -/
theorem roundtrip_expiry (seconds : Nat) (hs : seconds < 2 ^ 64) :
    (Tag.to_vec_u5 (.Expiry seconds)).toOption.map Tag.parse =
      some (some (.ok (.Expiry seconds))) := by
  have hlen13 := from_u64_length_le13 seconds hs
  set B := VecU5.from_u64 seconds with hB
  set n := B.length with hn
  have hws : Tag.write_size n = .ok [n / 32, n % 32] := write_size_lt n (by omega)
  have hdiv : n / 32 = 0 := by omega
  have hmod : n % 32 = n := by omega
  have hENC : Tag.to_vec_u5 (.Expiry seconds) = .ok (6 :: 0 :: n :: B) := by
    simp only [Tag.to_vec_u5]
    rw [← hB, ← hn, hws, hdiv, hmod]
    rfl
  rw [hENC]
  show some (Tag.parse (6 :: 0 :: n :: B)) = some (some (.ok (.Expiry seconds)))
  refine congrArg some ?_
  have hlen2 : ((0 : Nat) * 32 + n) % 256 = n := by omega
  have hc1 : ¬ ((6 : Nat) = BECH32_ALPHABET 'p') := by decide
  have hc2 : ¬ ((6 : Nat) = BECH32_ALPHABET 'd') := by decide
  have hc3 : ¬ ((6 : Nat) = BECH32_ALPHABET 'h') := by decide
  have hc4 : ¬ ((6 : Nat) = BECH32_ALPHABET 'f') := by decide
  have hc5 : ¬ ((6 : Nat) = BECH32_ALPHABET 'r') := by decide
  have hc6 : (6 : Nat) = BECH32_ALPHABET 'x' := by decide
  have hslice : rslice (6 :: 0 :: n :: B) 3 (n + 3) = some B := by
    rw [hn]
    exact rslice_payload 6 0 B.length B
  simp only [Tag.parse, List.get?, Option.bind_eq_bind, Option.some_bind, hlen2]
  rw [if_neg hc1, if_neg hc2, if_neg hc3, if_neg hc4, if_neg hc5, if_pos hc6, hslice]
  simp only [Option.some_bind]
  rw [hn, hB, to_u64_from_u64 seconds hs]

/-- Round trip for `MinFinalCltvExpiry` (any `u64` block count). -/
theorem roundtrip_min_final_cltv_expiry (blocks : Nat) (hs : blocks < 2 ^ 64) :
    (Tag.to_vec_u5 (.MinFinalCltvExpiry blocks)).toOption.map Tag.parse =
      some (some (.ok (.MinFinalCltvExpiry blocks))) := by
  have hlen13 := from_u64_length_le13 blocks hs
  set B := VecU5.from_u64 blocks with hB
  set n := B.length with hn
  have hws : Tag.write_size n = .ok [n / 32, n % 32] := write_size_lt n (by omega)
  have hdiv : n / 32 = 0 := by omega
  have hmod : n % 32 = n := by omega
  have hENC : Tag.to_vec_u5 (.MinFinalCltvExpiry blocks) = .ok (24 :: 0 :: n :: B) := by
    simp only [Tag.to_vec_u5]
    rw [← hB, ← hn, hws, hdiv, hmod]
    rfl
  rw [hENC]
  show some (Tag.parse (24 :: 0 :: n :: B)) =
    some (some (.ok (.MinFinalCltvExpiry blocks)))
  refine congrArg some ?_
  have hlen2 : ((0 : Nat) * 32 + n) % 256 = n := by omega
  have hc1 : ¬ ((24 : Nat) = BECH32_ALPHABET 'p') := by decide
  have hc2 : ¬ ((24 : Nat) = BECH32_ALPHABET 'd') := by decide
  have hc3 : ¬ ((24 : Nat) = BECH32_ALPHABET 'h') := by decide
  have hc4 : ¬ ((24 : Nat) = BECH32_ALPHABET 'f') := by decide
  have hc5 : ¬ ((24 : Nat) = BECH32_ALPHABET 'r') := by decide
  have hc6 : ¬ ((24 : Nat) = BECH32_ALPHABET 'x') := by decide
  have hc7 : (24 : Nat) = BECH32_ALPHABET 'c' := by decide
  have hslice : rslice (24 :: 0 :: n :: B) 3 (n + 3) = some B := by
    rw [hn]
    exact rslice_payload 24 0 B.length B
  simp only [Tag.parse, List.get?, Option.bind_eq_bind, Option.some_bind, hlen2]
  rw [if_neg hc1, if_neg hc2, if_neg hc3, if_neg hc4, if_neg hc5, if_neg hc6,
    if_pos hc7, hslice]
  simp only [Option.some_bind]
  rw [hn, hB, to_u64_from_u64 blocks hs]

/-- Round trip for `UnknownTag` (type code not one of the seven known
codes, payload below 256 words). -/
theorem roundtrip_unknown_tag (t : Nat) (bytes : List Nat)
    (h1 : t ≠ 1) (h13 : t ≠ 13) (h23 : t ≠ 23) (h9 : t ≠ 9) (h3 : t ≠ 3)
    (h6 : t ≠ 6) (h24 : t ≠ 24) (hlen : bytes.length < 256) :
    (Tag.to_vec_u5 (.UnknownTag t bytes)).toOption.map Tag.parse =
      some (some (.ok (.UnknownTag t bytes))) := by
  set n := bytes.length with hn
  have hws : Tag.write_size n = .ok [n / 32, n % 32] := write_size_lt n (by omega)
  have hENC : Tag.to_vec_u5 (.UnknownTag t bytes) =
      .ok (t :: n / 32 :: n % 32 :: bytes) := by
    simp only [Tag.to_vec_u5]
    rw [← hn, hws]
    rfl
  rw [hENC]
  show some (Tag.parse (t :: n / 32 :: n % 32 :: bytes)) =
    some (some (.ok (.UnknownTag t bytes)))
  refine congrArg some ?_
  have hlen2 : (n / 32 * 32 + n % 32) % 256 = n := by omega
  have hc1 : ¬ (t = BECH32_ALPHABET 'p') := by
    rw [show BECH32_ALPHABET 'p' = 1 from rfl]; exact h1
  have hc2 : ¬ (t = BECH32_ALPHABET 'd') := by
    rw [show BECH32_ALPHABET 'd' = 13 from rfl]; exact h13
  have hc3 : ¬ (t = BECH32_ALPHABET 'h') := by
    rw [show BECH32_ALPHABET 'h' = 23 from rfl]; exact h23
  have hc4 : ¬ (t = BECH32_ALPHABET 'f') := by
    rw [show BECH32_ALPHABET 'f' = 9 from rfl]; exact h9
  have hc5 : ¬ (t = BECH32_ALPHABET 'r') := by
    rw [show BECH32_ALPHABET 'r' = 3 from rfl]; exact h3
  have hc6 : ¬ (t = BECH32_ALPHABET 'x') := by
    rw [show BECH32_ALPHABET 'x' = 6 from rfl]; exact h6
  have hc7 : ¬ (t = BECH32_ALPHABET 'c') := by
    rw [show BECH32_ALPHABET 'c' = 24 from rfl]; exact h24
  have hslice : rslice (t :: n / 32 :: n % 32 :: bytes) 3 (n + 3) = some bytes := by
    rw [hn]
    exact rslice_payload t (bytes.length / 32) (bytes.length % 32) bytes
  simp only [Tag.parse, List.get?, Option.bind_eq_bind, Option.some_bind, hlen2]
  rw [if_neg hc1, if_neg hc2, if_neg hc3, if_neg hc4, if_neg hc5, if_neg hc6,
    if_neg hc7, hslice]
  rfl

/-! ### Round trip for `RoutingInfo` -/

theorem take_len_append (k : Nat) (l1 l2 : List Nat) (h : l1.length = k) :
    (l1 ++ l2).take k = l1 := by
  subst h
  exact List.take_left l1 l2

theorem drop_len_append (k : Nat) (l1 l2 : List Nat) (h : l1.length = k) :
    (l1 ++ l2).drop k = l2 := by
  subst h
  exact List.drop_left l1 l2

theorem drop_add_append (k j : Nat) (l1 l2 : List Nat) (h : l1.length = k) :
    (l1 ++ l2).drop (k + j) = l2.drop j := by
  subst h
  rw [← List.drop_drop, List.drop_left]

theorem beBytes_length : ∀ (w n : Nat), (beBytes w n).length = w := by
  intro w
  induction w with
  | zero => intro n; rfl
  | succ w ih => intro n; simp [beBytes, List.length_append, ih]

theorem beBytes_lt : ∀ (w n : Nat), ∀ x ∈ beBytes w n, x < 256 := by
  intro w
  induction w with
  | zero => intro n x hx; simp [beBytes] at hx
  | succ w ih =>
    intro n x hx
    simp only [beBytes, List.mem_append, List.mem_singleton] at hx
    rcases hx with hx | hx
    · exact ih (n / 256) x hx
    · omega

theorem beVal_beBytes : ∀ (w n : Nat), n < 256 ^ w → beVal (beBytes w n) = n := by
  intro w
  induction w with
  | zero => intro n h; interval_cases n; rfl
  | succ w ih =>
    intro n h
    have hdiv : n / 256 < 256 ^ w := by
      rw [Nat.div_lt_iff_lt_mul (by norm_num)]
      calc n < 256 ^ (w + 1) := h
        _ = 256 ^ w * 256 := pow_succ 256 w
    have hpre := ih (n / 256) hdiv
    simp only [beVal] at hpre ⊢
    simp only [beBytes, List.foldl_append, hpre, List.foldl]
    omega

theorem packBytes_length (h : ExtraHop) (hpk : h.pub_key.length = 33) :
    h.packBytes.length = 51 := by
  simp [ExtraHop.packBytes, List.length_append, beBytes_length, hpk]

theorem packBytes_lt (h : ExtraHop) (hb : ∀ x ∈ h.pub_key, x < 256) :
    ∀ x ∈ h.packBytes, x < 256 := by
  intro x hx
  simp only [ExtraHop.packBytes, List.mem_append] at hx
  rcases hx with ((((hx | hx) | hx) | hx) | hx)
  · exact hb x hx
  · exact beBytes_lt 8 _ x hx
  · exact beBytes_lt 4 _ x hx
  · exact beBytes_lt 4 _ x hx
  · exact beBytes_lt 2 _ x hx

/-- `ExtraHop::parse` inverts `ExtraHop::pack` on a well-formed hop. -/
theorem hop_parse_packBytes (h : ExtraHop) (hpk : h.pub_key.length = 33)
    (hscid : h.short_channel_id < 2 ^ 64) (hbase : h.fee_base_msat < 2 ^ 32)
    (hprop : h.fee_proportional_millionths < 2 ^ 32)
    (hdelta : h.cltv_expiry_delta < 2 ^ 16) :
    ExtraHop.parse h.packBytes = h := by
  obtain ⟨pk, scid, base, prop, delta⟩ := h
  simp only at hpk hscid hbase hprop hdelta
  simp only [ExtraHop.packBytes, ExtraHop.parse, ExtraHop.mk.injEq, List.append_assoc]
  refine ⟨?_, ?_, ?_, ?_, ?_⟩
  · exact take_len_append 33 pk _ hpk
  · rw [drop_len_append 33 pk _ hpk,
      take_len_append 8 (beBytes 8 scid) _ (beBytes_length 8 scid)]
    exact beVal_beBytes 8 scid
      (by calc scid < 2 ^ 64 := hscid
        _ = 256 ^ 8 := by norm_num)
  · rw [show (41 : Nat) = 33 + 8 from rfl, drop_add_append 33 8 pk _ hpk,
      drop_len_append 8 (beBytes 8 scid) _ (beBytes_length 8 scid),
      take_len_append 4 (beBytes 4 base) _ (beBytes_length 4 base)]
    exact beVal_beBytes 4 base
      (by calc base < 2 ^ 32 := hbase
        _ = 256 ^ 4 := by norm_num)
  · rw [show (45 : Nat) = 33 + 12 from rfl, drop_add_append 33 12 pk _ hpk,
      show (12 : Nat) = 8 + 4 from rfl,
      drop_add_append 8 4 (beBytes 8 scid) _ (beBytes_length 8 scid),
      drop_len_append 4 (beBytes 4 base) _ (beBytes_length 4 base),
      take_len_append 4 (beBytes 4 prop) _ (beBytes_length 4 prop)]
    exact beVal_beBytes 4 prop
      (by calc prop < 2 ^ 32 := hprop
        _ = 256 ^ 4 := by norm_num)
  · rw [show (49 : Nat) = 33 + 16 from rfl, drop_add_append 33 16 pk _ hpk,
      show (16 : Nat) = 8 + 8 from rfl,
      drop_add_append 8 8 (beBytes 8 scid) _ (beBytes_length 8 scid),
      show (8 : Nat) = 4 + 4 from rfl,
      drop_add_append 4 4 (beBytes 4 base) _ (beBytes_length 4 base),
      drop_len_append 4 (beBytes 4 prop) _ (beBytes_length 4 prop),
      show List.take 2 (beBytes 2 delta) = beBytes 2 delta from
        List.take_of_length_le (by rw [beBytes_length])]
    exact beVal_beBytes 2 delta
      (by calc delta < 2 ^ 16 := hdelta
        _ = 256 ^ 2 := by norm_num)

theorem parse_all_nil : ExtraHop.parse_all [] = [] := by
  simp [ExtraHop.parse_all, chunksOf]

theorem parse_all_cons_chunk (b1 rest : List Nat) (h51 : b1.length = 51) :
    ExtraHop.parse_all (b1 ++ rest) = ExtraHop.parse b1 :: ExtraHop.parse_all rest := by
  obtain ⟨a, t, rfl⟩ : ∃ a t, b1 = a :: t := by
    cases b1 with
    | nil => simp at h51
    | cons a t => exact ⟨a, t, rfl⟩
  simp only [ExtraHop.parse_all]
  have hsplit : (a :: t) ++ rest = a :: (t ++ rest) := rfl
  rw [hsplit]
  simp only [chunksOf]
  rw [← hsplit, take_len_append 51 (a :: t) rest h51, drop_len_append 51 (a :: t) rest h51,
    List.filter_cons]
  simp [h51, ExtraHop.CHUNK_LENGTH]

theorem packPath_eq (path : List ExtraHop) :
    packPath path = .ok (catMap ExtraHop.packBytes path) := by
  induction path with
  | nil => rfl
  | cons hd tl ih =>
    simp only [packPath, ExtraHop.pack, catMap, ih]
    rfl

theorem catMap_packBytes_length (path : List ExtraHop)
    (h : ∀ hop ∈ path, hop.pub_key.length = 33) :
    (catMap ExtraHop.packBytes path).length = 51 * path.length := by
  induction path with
  | nil => rfl
  | cons hd tl ih =>
    simp only [catMap, List.length_append, List.length_cons]
    rw [packBytes_length hd (h hd (List.mem_cons_self hd tl)),
      ih (fun hop hm => h hop (List.mem_cons_of_mem hd hm))]
    ring

theorem catMap_packBytes_lt (path : List ExtraHop)
    (hb : ∀ hop ∈ path, ∀ x ∈ hop.pub_key, x < 256) :
    ∀ x ∈ catMap ExtraHop.packBytes path, x < 256 := by
  induction path with
  | nil => intro x hx; simp [catMap] at hx
  | cons hd tl ih =>
    intro x hx
    simp only [catMap, List.mem_append] at hx
    rcases hx with hx | hx
    · exact packBytes_lt hd (hb hd (List.mem_cons_self hd tl)) x hx
    · exact ih (fun hop hm => hb hop (List.mem_cons_of_mem hd hm)) x hx

theorem parse_all_catMap (path : List ExtraHop)
    (hpk : ∀ hop ∈ path, hop.pub_key.length = 33)
    (hfields : ∀ hop ∈ path, hop.short_channel_id < 2 ^ 64 ∧ hop.fee_base_msat < 2 ^ 32 ∧
      hop.fee_proportional_millionths < 2 ^ 32 ∧ hop.cltv_expiry_delta < 2 ^ 16) :
    ExtraHop.parse_all (catMap ExtraHop.packBytes path) = path := by
  induction path with
  | nil => exact parse_all_nil
  | cons hd tl ih =>
    have hhd := hfields hd (List.mem_cons_self hd tl)
    simp only [catMap]
    rw [parse_all_cons_chunk _ _ (packBytes_length hd (hpk hd (List.mem_cons_self hd tl))),
      hop_parse_packBytes hd (hpk hd (List.mem_cons_self hd tl)) hhd.1 hhd.2.1 hhd.2.2.1
        hhd.2.2.2,
      ih (fun hop hm => hpk hop (List.mem_cons_of_mem hd hm))
        (fun hop hm => hfields hop (List.mem_cons_of_mem hd hm))]

/-- Round trip for `RoutingInfo` (well-formed hops, at most 3 of them so
that the payload stays below 256 words). -/
theorem roundtrip_routing_info (path : List ExtraHop)
    (hpk : ∀ hop ∈ path, hop.pub_key.length = 33)
    (hb : ∀ hop ∈ path, ∀ x ∈ hop.pub_key, x < 256)
    (hfields : ∀ hop ∈ path, hop.short_channel_id < 2 ^ 64 ∧ hop.fee_base_msat < 2 ^ 32 ∧
      hop.fee_proportional_millionths < 2 ^ 32 ∧ hop.cltv_expiry_delta < 2 ^ 16)
    (hcount : path.length ≤ 3) :
    (Tag.to_vec_u5 (.RoutingInfo path)).toOption.map Tag.parse =
      some (some (.ok (.RoutingInfo path))) := by
  set B := catMap ExtraHop.packBytes path with hB
  have hBlen : B.length = 51 * path.length := catMap_packBytes_length path hpk
  have hBlt : ∀ x ∈ B, x < 256 := catMap_packBytes_lt path hb
  set W := toU5 (catMap byteBits B) with hW
  have hWlen : W.length < 256 := by
    rw [hW, toU5_length, length_catMap_byteBits, hBlen]
    omega
  set n := W.length with hn2
  have hENC : Tag.to_vec_u5 (.RoutingInfo path) =
      .ok (3 :: n / 32 % 256 :: n % 32 :: W) := by
    simp only [Tag.to_vec_u5]
    rw [packPath_eq, ← hB]
    rfl
  rw [hENC]
  show some (Tag.parse (3 :: n / 32 % 256 :: n % 32 :: W)) =
    some (some (.ok (.RoutingInfo path)))
  refine congrArg some ?_
  have hlen2 : (n / 32 % 256 * 32 + n % 32) % 256 = n := by omega
  have hc1 : ¬ ((3 : Nat) = BECH32_ALPHABET 'p') := by decide
  have hc2 : ¬ ((3 : Nat) = BECH32_ALPHABET 'd') := by decide
  have hc3 : ¬ ((3 : Nat) = BECH32_ALPHABET 'h') := by decide
  have hc4 : ¬ ((3 : Nat) = BECH32_ALPHABET 'f') := by decide
  have hc5 : (3 : Nat) = BECH32_ALPHABET 'r' := by decide
  have hslice : rslice (3 :: n / 32 % 256 :: n % 32 :: W) 3 (n + 3) = some W := by
    rw [hn2]
    exact rslice_payload 3 (W.length / 32 % 256) (W.length % 32) W
  simp only [Tag.parse, List.get?, Option.bind_eq_bind, Option.some_bind, hlen2]
  rw [if_neg hc1, if_neg hc2, if_neg hc3, if_neg hc4, if_pos hc5, hslice]
  simp only [Option.some_bind]
  rw [hW, to_u8_vec_from_u8_vec B hBlt]
  show some (Except.ok (Tag.RoutingInfo (ExtraHop.parse_all B))) =
    some (Except.ok (Tag.RoutingInfo path))
  rw [hB, parse_all_catMap path hpk hfields]

end Lnaddr
